import Mathlib

/-!
# Stock-Analyzer: indicator engine, symbol extractor, summary builder

A shallow embedding of the algorithmic core of `stock_analyzer.py`:

* the indicator engine (`calculate_atr`, the 150-session moving average
  column added by `get_stock_data`),
* the ticker-symbol extractor (`extract_tickers_from_text`),
* the per-ticker summary builder (`get_stock_summary`) and the portfolio
  batch loop with its aggregate statistics.

Prices are embedded as rationals (`ℚ`); a pandas value that may be `NaN`
(a not-yet-filled rolling window, an undefined gap) is embedded as
`Option ℚ`, with `none` standing for `NaN`.  A pandas column of a
data-frame with `n` rows is a `List (Option ℚ)` of length `n`, aligned
positionally with the row index.  Strings are handled at the ASCII level:
the embedding of Python's `str.upper` and of the `\b` word boundary of the
`re` module covers the ASCII word characters `[A-Za-z0-9_]`, which is
exactly Python's behaviour on ASCII text.
-/

/-- One daily price bar: the `Open/High/Low/Close/Volume` row of the
data-frame returned by the quote fetcher.  The row index (the trading
session) is the list position. -/
structure Bar where
  open' : ℚ
  high : ℚ
  low : ℚ
  close : ℚ
  volume : ℚ
deriving DecidableEq

/-- `close.shift(1)`: the series holding at row `i` the value of row
`i - 1`, `NaN` (`none`) at row `0`. -/
def shift1 (xs : List ℚ) : List (Option ℚ) :=
  match xs with
  | [] => []
  | _ :: _ => none :: xs.dropLast.map some

/-- Row-wise maximum of two possibly-`NaN` values, as computed by
`DataFrame.max(axis=1)` with its default `skipna=True`: a `NaN` operand is
ignored, and the result is `NaN` only when both operands are. -/
def optMax2 : Option ℚ → Option ℚ → Option ℚ
  | none, b => b
  | some a, none => some a
  | some a, some b => some (max a b)

/-- The True-Range column of `calculate_atr`:
`tr1 = High - Low`, `tr2 = |High - Close.shift(1)|`,
`tr3 = |Low - Close.shift(1)|`, and
`tr = pd.concat([tr1, tr2, tr3], axis=1).max(axis=1)` (`NaN`-skipping
row maximum).  At row `0` the shifted close is `NaN`, so `tr2` and `tr3`
are `NaN` there and the row maximum degenerates to `tr1`. -/
def trueRangeList (bars : List Bar) : List (Option ℚ) :=
  let high := bars.map Bar.high
  let low := bars.map Bar.low
  let close := bars.map Bar.close
  let tr1 := (List.zipWith (fun h l => h - l) high low).map some
  let prevClose := shift1 close
  let tr2 := List.zipWith (fun h oc => oc.map (fun c => |h - c|)) high prevClose
  let tr3 := List.zipWith (fun l oc => oc.map (fun c => |l - c|)) low prevClose
  List.zipWith optMax2 (List.zipWith optMax2 tr1 tr2) tr3

/-- `Series.rolling(window=w).mean()` with the default
`min_periods = w`: row `i` holds the mean of the trailing window
`xs[i+1-w .. i]` when that window has `w` rows and none of them is `NaN`,
and `NaN` otherwise. -/
def rollingMean (w : ℕ) (xs : List (Option ℚ)) : List (Option ℚ) :=
  (List.range xs.length).map (fun i =>
    if w ≤ i + 1 then
      let win := (xs.take (i + 1)).drop (i + 1 - w)
      if win.all Option.isSome then
        some ((win.map (fun o => o.getD 0)).sum / (w : ℚ))
      else none
    else none)

/-- `calculate_atr(df, period=14)`: the rolling mean of the True-Range
column over a 14-session window. -/
def calculate_atr (bars : List Bar) : List (Option ℚ) :=
  rollingMean 14 (trueRangeList bars)

/-- The `MA150` column added by `get_stock_data`:
`df['Close'].rolling(window=150).mean()`.  The close column itself has no
`NaN` entries, hence the `map some`. -/
def MA150 (bars : List Bar) : List (Option ℚ) :=
  rollingMean 150 ((bars.map Bar.close).map some)

/-- Python's `str.upper()` on an ASCII character: a lower-case ASCII
letter is shifted to the corresponding upper-case letter, every other
character is unchanged. -/
def upperChar (c : Char) : Char :=
  if 97 ≤ c.toNat ∧ c.toNat ≤ 122 then Char.ofNat (c.toNat - 32) else c

/-- An ASCII word character in the sense of the `\b` boundary of
Python's `re` module: a letter, a digit, or an underscore. -/
def isWordChar (c : Char) : Bool :=
  (65 ≤ c.toNat ∧ c.toNat ≤ 90) ∨ (97 ≤ c.toNat ∧ c.toNat ≤ 122) ∨
    (48 ≤ c.toNat ∧ c.toNat ≤ 57) ∨ c.toNat = 95

/-- The scanning loop of `wordRuns`: walk the characters accumulating
the current word-character run (in reverse); a non-word character or the
end of the input closes the run. -/
def wordRunsGo (cur : List Char) : List Char → List (List Char)
  | [] => if cur = [] then [] else [cur.reverse]
  | c :: cs =>
    if isWordChar c then wordRunsGo (c :: cur) cs
    else if cur = [] then wordRunsGo [] cs
    else cur.reverse :: wordRunsGo [] cs

/-- The maximal runs of word characters of a string, in order.
A match of the pattern `\b[A-Z]{1,5}\b` is a run of 1–5 upper-case
letters whose neighbours on both sides are not word characters; since a
word character right before or right after the candidate letters defeats
the corresponding `\b`, the matches of `re.findall` are exactly the
maximal word-character runs that consist of 1–5 upper-case letters.
This function computes all maximal runs; the shape filter is applied by
`potentialTickers` below. -/
def wordRuns (l : List Char) : List (List Char) :=
  wordRunsGo [] l

theorem wordRunsGo_nonempty (l : List Char) : ∀ cur, cur ≠ [] →
    wordRunsGo cur l =
      (cur.reverse ++ l.takeWhile isWordChar) ::
        wordRunsGo [] (l.dropWhile isWordChar) := by
  induction l with
  | nil => intro cur hc; simp [wordRunsGo, hc]
  | cons c cs ih =>
    intro cur hc
    by_cases hw : isWordChar c
    · rw [wordRunsGo, if_pos hw, ih (c :: cur) (by simp),
        List.takeWhile_cons_of_pos hw, List.dropWhile_cons_of_pos hw]
      simp
    · rw [wordRunsGo, if_neg hw, if_neg hc,
        List.takeWhile_cons_of_neg hw, List.dropWhile_cons_of_neg hw,
        wordRunsGo, if_neg hw, if_pos rfl]
      simp

theorem wordRuns_nil : wordRuns [] = [] := rfl

theorem wordRuns_cons_neg (c : Char) (cs : List Char) (hw : isWordChar c = false) :
    wordRuns (c :: cs) = wordRuns cs := by
  rw [wordRuns, wordRunsGo, if_neg (by simp [hw]), if_pos rfl, wordRuns]

theorem wordRuns_cons_pos (c : Char) (cs : List Char) (hw : isWordChar c = true) :
    wordRuns (c :: cs) =
      (c :: cs.takeWhile isWordChar) :: wordRuns (cs.dropWhile isWordChar) := by
  rw [wordRuns, wordRunsGo, if_pos hw, wordRunsGo_nonempty cs [c] (by simp)]
  rfl

/-- Whether a maximal word-character run is matched by
`\b[A-Z]{1,5}\b`: between 1 and 5 characters, all upper-case letters. -/
def matchesTickerShape (r : List Char) : Bool :=
  1 ≤ r.length ∧ r.length ≤ 5 ∧ ∀ c ∈ r, 65 ≤ c.toNat ∧ c.toNat ≤ 90

/-- The `common_words` stop-set of `extract_tickers_from_text`,
reproduced verbatim. -/
def common_words : List String :=
  ["A", "I", "AM", "AN", "AS", "AT", "BE", "BY", "DO", "GO", "HE", "IF",
   "IN", "IS", "IT", "ME", "MY", "NO", "OF", "OK", "ON", "OR", "SO", "TO",
   "UP", "US", "WE", "THE", "AND", "FOR", "ARE", "BUT", "NOT", "YOU", "ALL",
   "CAN", "HAD", "HER", "WAS", "ONE", "OUR", "OUT", "PDF", "USD", "EUR"]

/-- `re.findall(r'\b[A-Z]{1,5}\b', text.upper())`: upper-case the text,
then keep the maximal word-character runs matched by the pattern. -/
def potentialTickers (text : String) : List String :=
  ((wordRuns (text.toList.map upperChar)).filter matchesTickerShape).map
    (fun r => String.mk r)

/-- The deduplication loop of `extract_tickers_from_text`: walk the
token list keeping a `seen` set, appending each token not yet seen. -/
def dedupGo (seen : List String) : List String → List String
  | [] => []
  | t :: ts => if t ∈ seen then dedupGo seen ts else t :: dedupGo (t :: seen) ts

/-- The `tickers` list of `extract_tickers_from_text`: the candidate
tokens with the stop-set words dropped, duplicates still present. -/
def filteredTickers (text : String) : List String :=
  (potentialTickers text).filter (fun t => ¬ t ∈ common_words)

/-- `extract_tickers_from_text(text)`: find the candidate tokens, drop
the stop-set words, deduplicate preserving first-occurrence order. -/
def extract_tickers_from_text (text : String) : List String :=
  dedupGo [] (filteredTickers text)

/-- `", ".join(tickers)`, the comma-joined text shown in the portfolio
text area (the input on which re-extraction is run for idempotence). -/
def joinComma : List String → String
  | [] => ""
  | [t] => t
  | t :: ts => t ++ ", " ++ joinComma ts

/-- Specification-side rendering of "deduplicate preserving
first-occurrence order": keep the head, erase its later occurrences,
recurse.  Compared against `dedupGo` for the deduplication claim. -/
def firstOccurrences : List String → List String
  | [] => []
  | t :: ts => t :: firstOccurrences (ts.filter (fun x => x ≠ t))
termination_by l => l.length
decreasing_by
  simp only [List.length_cons]
  exact Nat.lt_succ_of_le (List.length_filter_le _ _)

/-- A Summary Record: the per-ticker dictionary built by
`get_stock_summary` (`Ticker`, `Current Price`, `150-Day MA`, `Gap %`,
`ATR (14)`).  Fields that can be `NaN`/`None` are `Option ℚ`. -/
structure SummaryRecord where
  ticker : String
  currentPrice : ℚ
  ma150 : Option ℚ
  gapPct : Option ℚ
  atr : Option ℚ
deriving DecidableEq

/-- `get_stock_summary(ticker)`.  The quote fetcher is the external
collaborator: `fetch ticker = none` models a fetch or computation that
raises (caught by the `try/except` and converted to `None`), and
`fetch ticker = some bars` models a returned data-frame with rows
`bars` (possibly empty).  An empty data-frame yields `None`; otherwise
the record takes the last close, the last `MA150` and `ATR` entries, and
the gap is computed only when the moving average is defined (`notna`)
and non-zero. -/
def get_stock_summary (fetch : String → Option (List Bar)) (ticker : String) :
    Option SummaryRecord :=
  match fetch ticker with
  | none => none
  | some bars =>
    match bars.getLast? with
    | none => none
    | some lastBar =>
      let currentPrice := lastBar.close
      let ma := (MA150 bars).getLast?.getD none
      let atrLast := (calculate_atr bars).getLast?.getD none
      let gap : Option ℚ :=
        match ma with
        | some m => if m ≠ 0 then some ((currentPrice - m) / m * 100) else none
        | none => none
      some ⟨ticker, currentPrice, ma, gap, atrLast⟩

/-- The portfolio batch loop: process the tickers in order, appending
each non-`None` summary to `results` and each failed ticker to
`failed_tickers`.  Returns `(results, failed_tickers)`. -/
def processBatch (fetch : String → Option (List Bar)) :
    List String → List SummaryRecord × List String
  | [] => ([], [])
  | t :: ts =>
    let rest := processBatch fetch ts
    match get_stock_summary fetch t with
    | some r => (r :: rest.1, rest.2)
    | none => (rest.1, t :: rest.2)

/-- `df_results['Gap %'].dropna()`: the defined gap values of the
succeeded records, in order. -/
def validGaps (rs : List SummaryRecord) : List ℚ :=
  rs.filterMap SummaryRecord.gapPct

/-- `(valid_gaps > 0).sum()`: the number of records above the moving
average. -/
def above_ma (rs : List SummaryRecord) : ℕ :=
  (validGaps rs).countP (fun g => 0 < g)

/-- `(valid_gaps < 0).sum()`: the number of records below the moving
average. -/
def below_ma (rs : List SummaryRecord) : ℕ :=
  (validGaps rs).countP (fun g => g < 0)

/-- `valid_gaps.mean()`: the mean of the defined gaps, `NaN` (`none`)
when no gap is defined. -/
def avg_gap (rs : List SummaryRecord) : Option ℚ :=
  if (validGaps rs).isEmpty then none
  else some ((validGaps rs).sum / ((validGaps rs).length : ℚ))

theorem length_rollingMean (w : ℕ) (xs : List (Option ℚ)) :
    (rollingMean w xs).length = xs.length := by
  simp [rollingMean]

theorem rollingMean_getElem? (w : ℕ) (xs : List (Option ℚ)) (i : ℕ)
    (hi : i < xs.length) :
    (rollingMean w xs)[i]? =
      some (if w ≤ i + 1 then
        (if ((xs.take (i + 1)).drop (i + 1 - w)).all Option.isSome then
          some ((((xs.take (i + 1)).drop (i + 1 - w)).map
            (fun o => o.getD 0)).sum / (w : ℚ))
        else none)
      else none) := by
  simp [rollingMean, List.getElem?_map, List.getElem?_range hi]

theorem length_shift1 (xs : List ℚ) : (shift1 xs).length = xs.length := by
  cases xs <;> simp [shift1]

theorem length_trueRangeList (bars : List Bar) :
    (trueRangeList bars).length = bars.length := by
  simp [trueRangeList, List.length_zipWith, length_shift1]

theorem optMax2_some_left (a : ℚ) (b : Option ℚ) :
    ∃ v, optMax2 (some a) b = some v := by
  cases b <;> simp [optMax2]

theorem trueRangeList_getElem?_isSome (bars : List Bar) (i : ℕ)
    (hi : i < bars.length) :
    ∃ v : ℚ, (trueRangeList bars)[i]? = some (some v) := by
  have hpc : i < (shift1 (bars.map Bar.close)).length := by
    simpa [length_shift1] using hi
  have hp2 : (shift1 (bars.map Bar.close))[i]? =
      some ((shift1 (bars.map Bar.close))[i]) := List.getElem?_eq_getElem hpc
  simp only [trueRangeList, List.getElem?_zipWith', List.getElem?_map, hp2,
    List.getElem?_eq_getElem hi]
  cases (shift1 (bars.map Bar.close))[i] <;> simp [optMax2]

theorem trueRangeList_mem_isSome (bars : List Bar) (o : Option ℚ)
    (ho : o ∈ trueRangeList bars) : o.isSome = true := by
  obtain ⟨i, hio⟩ := List.mem_iff_getElem?.mp ho
  have hlt : i < (trueRangeList bars).length := by
    by_contra hge
    rw [List.getElem?_eq_none (Nat.le_of_not_lt hge)] at hio
    exact Option.noConfusion hio
  obtain ⟨v, hv⟩ := trueRangeList_getElem?_isSome bars i
    (by simpa [length_trueRangeList] using hlt)
  rw [hio] at hv
  injection hv with hov
  simp [hov]

/-- A concrete 14-session series: every bar has high 2, low 1, close 1
(open 1, volume 0), so every True-Range row equals 1. -/
def flatBar : Bar := ⟨1, 2, 1, 1, 0⟩

/-- C1 (amended): in `calculate_atr`, the `NaN`-skipping row maximum makes
the True Range at index 0 equal to `high[0] - low[0]` (defined, not
undefined), so ATR(14) is undefined exactly for the first 13 sessions:
it is `NaN` at indices `i < 13` and defined at every index `13 ≤ i`. -/
theorem atr_window_semantics (bars : List Bar) :
    (∀ b bs, bars = b :: bs →
      (trueRangeList bars)[0]? = some (some (b.high - b.low))) ∧
    (∀ i, i < bars.length → i < 13 → (calculate_atr bars)[i]? = some none) ∧
    (∀ i, i < bars.length → 13 ≤ i →
      ∃ v, (calculate_atr bars)[i]? = some (some v)) := by
  refine ⟨?_, ?_, ?_⟩
  · rintro b bs rfl
    simp [trueRangeList, shift1, optMax2]
  · intro i hi h13
    have hi2 : i < (trueRangeList bars).length := by
      simpa [length_trueRangeList] using hi
    rw [calculate_atr, rollingMean_getElem? 14 _ i hi2, if_neg (by omega)]
  · intro i hi h13
    have hi2 : i < (trueRangeList bars).length := by
      simpa [length_trueRangeList] using hi
    rw [calculate_atr, rollingMean_getElem? 14 _ i hi2, if_pos (by omega)]
    have hall : (((trueRangeList bars).take (i + 1)).drop (i + 1 - 14)).all
        Option.isSome = true := by
      rw [List.all_eq_true]
      intro o ho
      exact trueRangeList_mem_isSome bars o
        (List.mem_of_mem_take (List.mem_of_mem_drop ho))
    rw [if_pos hall]
    exact ⟨_, rfl⟩

theorem trueRangeList_replicate (n : ℕ) (b : Bar) :
    trueRangeList (List.replicate (n + 1) b) =
      some (b.high - b.low) ::
        List.replicate n (some (max (max (b.high - b.low) |b.high - b.close|)
          |b.low - b.close|)) := by
  have hsh : shift1 (List.replicate (n + 1) b.close) =
      none :: List.replicate n (some b.close) := by
    rw [List.replicate_succ]
    show none :: (b.close :: List.replicate n b.close).dropLast.map some = _
    rw [← List.replicate_succ, List.dropLast_replicate, List.map_replicate]
    simp
  simp only [trueRangeList, List.map_replicate, hsh]
  rw [List.zipWith_replicate, min_self, List.map_replicate]
  simp only [List.replicate_succ]
  simp [List.zipWith_replicate, optMax2]

theorem trueRangeList_flat14 :
    trueRangeList (List.replicate 14 flatBar) = List.replicate 14 (some 1) := by
  have h := trueRangeList_replicate 13 flatBar
  rw [show (13 : ℕ) + 1 = 14 from rfl] at h
  rw [h, show List.replicate 14 (some (1 : ℚ)) =
    some 1 :: List.replicate 13 (some 1) from rfl]
  have hv : max (max (flatBar.high - flatBar.low) |flatBar.high - flatBar.close|)
      |flatBar.low - flatBar.close| = 1 := by
    rw [max_def, max_def]; norm_num [flatBar]
  rw [hv, show flatBar.high - flatBar.low = (1 : ℚ) by norm_num [flatBar]]

/-- C1 counterexample: on a concrete 14-session series the code's True
Range at index 0 is defined (it equals `high[0] - low[0] = 1`), and
ATR(14) is already defined at index 13 (< 14), refuting the claim that
True Range is undefined at index 0 and ATR(14) undefined at all
`i < 14`. -/
theorem atr_defined_before_14_sessions :
    (trueRangeList (List.replicate 14 flatBar))[0]? = some (some 1) ∧
    13 < 14 ∧
    (calculate_atr (List.replicate 14 flatBar))[13]? = some (some 1) := by
  refine ⟨by rw [trueRangeList_flat14]; rfl, by norm_num, ?_⟩
  rw [calculate_atr, trueRangeList_flat14,
    rollingMean_getElem? 14 _ 13 (by simp), if_pos (by norm_num)]
  norm_num [List.take_replicate, List.all_eq_true, List.mem_replicate,
    List.map_replicate, List.sum_replicate, nsmul_eq_mul]

/-- Witness for `atr_window_semantics` at the concrete series
`List.replicate 14 flatBar`. -/
theorem atr_window_semantics_witness :
    (List.replicate 14 flatBar = flatBar :: List.replicate 13 flatBar ∧
      (trueRangeList (List.replicate 14 flatBar))[0]? =
        some (some (flatBar.high - flatBar.low))) ∧
    (12 < (List.replicate 14 flatBar).length ∧ 12 < 13 ∧
      (calculate_atr (List.replicate 14 flatBar))[12]? = some none) ∧
    (13 < (List.replicate 14 flatBar).length ∧ 13 ≤ 13 ∧
      ∃ v, (calculate_atr (List.replicate 14 flatBar))[13]? = some (some v)) :=
  ⟨⟨rfl, (atr_window_semantics (List.replicate 14 flatBar)).1 flatBar
      (List.replicate 13 flatBar) rfl⟩,
   ⟨by simp, by norm_num, (atr_window_semantics (List.replicate 14 flatBar)).2.1 12
      (by simp) (by norm_num)⟩,
   ⟨by simp, by norm_num, (atr_window_semantics (List.replicate 14 flatBar)).2.2 13
      (by simp) (by norm_num)⟩⟩

theorem all_isSome_map_some (l : List ℚ) :
    (l.map some).all Option.isSome = true := by
  simp [List.all_eq_true]

theorem map_getD_map_some (l : List ℚ) :
    ((l.map some).map (fun o => o.getD 0)).sum = l.sum := by
  simp [List.map_map, Function.comp_def]

theorem MA150_getElem?_lt (bars : List Bar) (i : ℕ) (hi : i < bars.length)
    (h : i + 1 < 150) : (MA150 bars)[i]? = some none := by
  have hi2 : i < ((bars.map Bar.close).map some).length := by simpa using hi
  rw [MA150, rollingMean_getElem? 150 _ i hi2, if_neg (by omega)]

theorem MA150_getElem?_ge (bars : List Bar) (i : ℕ) (hi : i < bars.length)
    (h : 150 ≤ i + 1) :
    (MA150 bars)[i]? = some (some
      ((((bars.map Bar.close).take (i + 1)).drop (i + 1 - 150)).sum / (150 : ℚ))) := by
  have hi2 : i < ((bars.map Bar.close).map some).length := by simpa using hi
  rw [MA150, rollingMean_getElem? 150 _ i hi2, if_pos h]
  have hwin : (((bars.map Bar.close).map some).take (i + 1)).drop (i + 1 - 150)
      = (((bars.map Bar.close).take (i + 1)).drop (i + 1 - 150)).map some := by
    rw [List.map_drop, List.map_take]
  rw [hwin, if_pos (all_isSome_map_some _), map_getD_map_some]
  norm_num

/-- C2: SMA(150) (the `MA150` column) is `NaN` at every row when the
series is shorter than 150 bars and at every row `i` with `i + 1 < 150`
(0-based `i < 149`), and at every row `i ≥ 149` it equals the arithmetic
mean of the trailing 150 closes `close[i-149..i]`; no case is an error
(the column always has an entry at every row of the series). -/
theorem sma150_window_semantics (bars : List Bar) (i : ℕ) (hi : i < bars.length) :
    (bars.length < 150 → (MA150 bars)[i]? = some none) ∧
    (i + 1 < 150 → (MA150 bars)[i]? = some none) ∧
    (150 ≤ i + 1 → (MA150 bars)[i]? = some (some
      ((((bars.map Bar.close).take (i + 1)).drop (i + 1 - 150)).sum / (150 : ℚ)))) :=
  ⟨fun h => MA150_getElem?_lt bars i hi (by omega),
   fun h => MA150_getElem?_lt bars i hi h,
   fun h => MA150_getElem?_ge bars i hi h⟩

/-- A constant bar with all prices 1, volume 1. -/
def constBar : Bar := ⟨1, 1, 1, 1, 1⟩

/-- Witness for `sma150_window_semantics`: a 150-bar series at row 149
(window full) and a 3-bar series at row 0 (series shorter than the
window). -/
theorem sma150_window_semantics_witness :
    (149 < (List.replicate 150 constBar).length ∧ 150 ≤ 149 + 1 ∧
      (MA150 (List.replicate 150 constBar))[149]? = some (some
        ((((List.replicate 150 constBar |>.map Bar.close).take (149 + 1)).drop
          (149 + 1 - 150)).sum / (150 : ℚ)))) ∧
    (0 < (List.replicate 3 constBar).length ∧ (List.replicate 3 constBar).length < 150 ∧
      (MA150 (List.replicate 3 constBar))[0]? = some none) :=
  ⟨⟨by simp, by norm_num,
    (sma150_window_semantics (List.replicate 150 constBar) 149 (by simp)).2.2
      (by norm_num)⟩,
   ⟨by simp, by simp,
    (sma150_window_semantics (List.replicate 3 constBar) 0 (by simp)).1 (by simp)⟩⟩

theorem mem_dedupGo (t : String) (l : List String) : ∀ seen,
    t ∈ dedupGo seen l ↔ t ∈ l ∧ t ∉ seen := by
  induction l with
  | nil => intro seen; simp [dedupGo]
  | cons a ts ih =>
    intro seen
    by_cases ha : a ∈ seen
    · rw [dedupGo, if_pos ha, ih seen]
      constructor
      · rintro ⟨h1, h2⟩; exact ⟨List.mem_cons_of_mem _ h1, h2⟩
      · rintro ⟨h1, h2⟩
        rcases List.mem_cons.mp h1 with rfl | h1
        · exact absurd ha h2
        · exact ⟨h1, h2⟩
    · rw [dedupGo, if_neg ha]
      simp only [List.mem_cons, ih (a :: seen)]
      constructor
      · rintro (rfl | ⟨h1, h2⟩)
        · exact ⟨Or.inl rfl, ha⟩
        · exact ⟨Or.inr h1, fun hs => h2 (Or.inr hs)⟩
      · rintro ⟨rfl | h1, h2⟩
        · exact Or.inl rfl
        · by_cases hta : t = a
          · exact Or.inl hta
          · exact Or.inr ⟨h1, by simp [List.mem_cons, hta, h2]⟩

theorem dedupGo_sublist (l : List String) : ∀ seen,
    (dedupGo seen l).Sublist l := by
  induction l with
  | nil => intro seen; simp [dedupGo]
  | cons a ts ih =>
    intro seen
    by_cases ha : a ∈ seen
    · rw [dedupGo, if_pos ha]
      exact (ih seen).trans (List.sublist_cons_self a ts)
    · rw [dedupGo, if_neg ha]
      exact (ih (a :: seen)).cons₂ a

theorem dedupGo_nodup (l : List String) : ∀ seen, (dedupGo seen l).Nodup := by
  induction l with
  | nil => intro seen; simp [dedupGo]
  | cons a ts ih =>
    intro seen
    by_cases ha : a ∈ seen
    · rw [dedupGo, if_pos ha]; exact ih seen
    · rw [dedupGo, if_neg ha]
      refine List.nodup_cons.mpr ⟨?_, ih (a :: seen)⟩
      intro hmem
      exact ((mem_dedupGo a ts (a :: seen)).mp hmem).2 (List.mem_cons_self a seen)

theorem dedupGo_eq_firstOccurrences (l : List String) : ∀ seen,
    dedupGo seen l = firstOccurrences (l.filter (fun x => decide (x ∉ seen))) := by
  induction l with
  | nil => intro seen; simp [dedupGo, firstOccurrences]
  | cons a ts ih =>
    intro seen
    by_cases ha : a ∈ seen
    · rw [dedupGo, if_pos ha, List.filter_cons, if_neg (by simp [ha])]
      exact ih seen
    · rw [dedupGo, if_neg ha, List.filter_cons, if_pos (by simp [ha]),
        firstOccurrences]
      congr 1
      rw [ih (a :: seen), List.filter_filter]
      congr 1
      refine List.filter_congr fun x hx => ?_
      by_cases h1 : x = a <;> by_cases h2 : x ∈ seen <;>
        simp [h1, h2, List.mem_cons]

theorem extract_mem_properties (text : String) (t : String)
    (ht : t ∈ extract_tickers_from_text text) :
    t.toList ∈ wordRuns (text.toList.map upperChar) ∧
    matchesTickerShape t.toList = true ∧ t ∉ common_words := by
  rw [extract_tickers_from_text] at ht
  obtain ⟨hf, -⟩ := (mem_dedupGo t (filteredTickers text) []).mp ht
  rw [filteredTickers, List.mem_filter] at hf
  obtain ⟨hp, hstop⟩ := hf
  rw [potentialTickers, List.mem_map] at hp
  obtain ⟨r, hr, rfl⟩ := hp
  rw [List.mem_filter] at hr
  exact ⟨hr.1, hr.2, of_decide_eq_true hstop⟩

/-- C3: a token emitted by the extractor is always a maximal
word-character run of the upper-cased input consisting of 1–5 upper-case
letters; a delimited run of 6 or more characters is never emitted; and
`extract("NASDAQ TRADES AAPL") = ["AAPL"]`. -/
theorem extractor_token_shape :
    (∀ text t, t ∈ extract_tickers_from_text text →
      t.toList ∈ wordRuns (text.toList.map upperChar) ∧
      1 ≤ t.toList.length ∧ t.toList.length ≤ 5 ∧
      ∀ c ∈ t.toList, 65 ≤ c.toNat ∧ c.toNat ≤ 90) ∧
    (∀ text r, r ∈ wordRuns (text.toList.map upperChar) → 6 ≤ r.length →
      ∀ t ∈ extract_tickers_from_text text, t.toList ≠ r) ∧
    extract_tickers_from_text "NASDAQ TRADES AAPL" = ["AAPL"] := by
  have hshape : ∀ text t, t ∈ extract_tickers_from_text text →
      t.toList ∈ wordRuns (text.toList.map upperChar) ∧
      1 ≤ t.toList.length ∧ t.toList.length ≤ 5 ∧
      ∀ c ∈ t.toList, 65 ≤ c.toNat ∧ c.toNat ≤ 90 := by
    intro text t ht
    obtain ⟨hrun, hshape, -⟩ := extract_mem_properties text t ht
    rw [matchesTickerShape, decide_eq_true_eq] at hshape
    exact ⟨hrun, hshape⟩
  refine ⟨hshape, ?_, by decide⟩
  intro text r hr hr6 t ht heq
  obtain ⟨-, -, hlen, -⟩ := hshape text t ht
  rw [heq] at hlen
  omega

/-- Witness for `extractor_token_shape` on the boundary-case input
`"NASDAQ TRADES AAPL"`. -/
theorem extractor_token_shape_witness :
    ("AAPL" ∈ extract_tickers_from_text "NASDAQ TRADES AAPL" ∧
      "AAPL".toList ∈ wordRuns ("NASDAQ TRADES AAPL".toList.map upperChar) ∧
      1 ≤ "AAPL".toList.length ∧ "AAPL".toList.length ≤ 5 ∧
      ∀ c ∈ "AAPL".toList, 65 ≤ c.toNat ∧ c.toNat ≤ 90) ∧
    ("NASDAQ".toList ∈ wordRuns ("NASDAQ TRADES AAPL".toList.map upperChar) ∧
      6 ≤ "NASDAQ".toList.length ∧
      "AAPL".toList ≠ "NASDAQ".toList) :=
  ⟨⟨by decide, extractor_token_shape.1 "NASDAQ TRADES AAPL" "AAPL" (by decide)⟩,
   ⟨by decide, by decide,
    extractor_token_shape.2.1 "NASDAQ TRADES AAPL" "NASDAQ".toList (by decide)
      (by decide) "AAPL" (by decide)⟩⟩

/-- C4: a token of the fixed stop-set never appears in the extractor's
output, and `extract("THE AND PDF") = []`. -/
theorem extractor_stoplist :
    (∀ text t, t ∈ extract_tickers_from_text text → t ∉ common_words) ∧
    extract_tickers_from_text "THE AND PDF" = [] :=
  ⟨fun text t ht => (extract_mem_properties text t ht).2.2, by decide⟩

/-- Witness for `extractor_stoplist` at input `"AAPL THE"`. -/
theorem extractor_stoplist_witness :
    "AAPL" ∈ extract_tickers_from_text "AAPL THE" ∧ "AAPL" ∉ common_words :=
  ⟨by decide, extractor_stoplist.1 "AAPL THE" "AAPL" (by decide)⟩

/-- C5: the extractor's output is duplicate-free, it is the
first-occurrence deduplication of the filtered token list (a sublist
containing the same tokens, each kept at its first position), and
`extract("AAPL MSFT AAPL") = ["AAPL", "MSFT"]`. -/
theorem extractor_dedup_first_occurrence :
    (∀ text,
      extract_tickers_from_text text = firstOccurrences (filteredTickers text) ∧
      (extract_tickers_from_text text).Nodup ∧
      (extract_tickers_from_text text).Sublist (filteredTickers text) ∧
      ∀ t, t ∈ extract_tickers_from_text text ↔ t ∈ filteredTickers text) ∧
    extract_tickers_from_text "AAPL MSFT AAPL" = ["AAPL", "MSFT"] := by
  refine ⟨fun text => ⟨?_, ?_, ?_, ?_⟩, by decide⟩
  · rw [extract_tickers_from_text, dedupGo_eq_firstOccurrences]
    congr 1
    simp
  · exact dedupGo_nodup _ []
  · exact dedupGo_sublist _ []
  · intro t
    rw [extract_tickers_from_text, mem_dedupGo]
    simp

/-- C10: digits and underscores are word characters for the boundary
match, not run-breaking delimiters: a maximal word-character run that
contains a digit or an underscore is never emitted as a token, so a
1–5-letter run glued to a digit or underscore yields nothing; in
particular `extract("AAPL2024") = []`. -/
theorem digit_adjacent_run_no_token :
    isWordChar '0' = true ∧ isWordChar '9' = true ∧ isWordChar '_' = true ∧
    (∀ text r, r ∈ wordRuns (text.toList.map upperChar) →
      (∃ c ∈ r, (48 ≤ c.toNat ∧ c.toNat ≤ 57) ∨ c.toNat = 95) →
      ∀ t ∈ extract_tickers_from_text text, t.toList ≠ r) ∧
    extract_tickers_from_text "AAPL2024" = [] := by
  refine ⟨by decide, by decide, by decide, ?_, by decide⟩
  intro text r hr hdig t ht heq
  obtain ⟨-, hshape, -⟩ := extract_mem_properties text t ht
  rw [matchesTickerShape, decide_eq_true_eq] at hshape
  obtain ⟨c, hc, hcd⟩ := hdig
  rw [← heq] at hc
  obtain ⟨h1, h2⟩ := hshape.2.2 c hc
  omega

/-- Witness for `digit_adjacent_run_no_token`: in `"AAPL2024 MSFT"` the
run `"AAPL2024"` contains digits and is not emitted, while `"MSFT"` is. -/
theorem digit_adjacent_run_no_token_witness :
    ("AAPL2024".toList ∈ wordRuns ("AAPL2024 MSFT".toList.map upperChar) ∧
      (∃ c ∈ "AAPL2024".toList, (48 ≤ c.toNat ∧ c.toNat ≤ 57) ∨ c.toNat = 95) ∧
      "MSFT" ∈ extract_tickers_from_text "AAPL2024 MSFT") ∧
    "MSFT".toList ≠ "AAPL2024".toList :=
  ⟨⟨by decide, by decide, by decide⟩,
   digit_adjacent_run_no_token.2.2.2.1 "AAPL2024 MSFT" "AAPL2024".toList
     (by decide) (by decide) "MSFT" (by decide)⟩

/-- Character-level view of `", ".join`: the characters of the joined
text are the runs separated by a comma and a space. -/
def joinCharL : List (List Char) → List Char
  | [] => []
  | [t] => t
  | t :: ts => t ++ ',' :: ' ' :: joinCharL ts

theorem toList_joinComma : ∀ ts : List String,
    (joinComma ts).toList = joinCharL (ts.map String.toList)
  | [] => rfl
  | [_] => rfl
  | t :: t' :: ts => by
    show (t ++ ", " ++ joinComma (t' :: ts)).toList =
      t.toList ++ ',' :: ' ' :: joinCharL ((t' :: ts).map String.toList)
    rw [← toList_joinComma (t' :: ts)]
    simp

theorem upperChar_of_upper (c : Char) (h1 : 65 ≤ c.toNat) (h2 : c.toNat ≤ 90) :
    upperChar c = c := by
  rw [upperChar, if_neg]
  omega

theorem isWordChar_of_upper (c : Char) (h1 : 65 ≤ c.toNat) (h2 : c.toNat ≤ 90) :
    isWordChar c = true := by
  rw [isWordChar, decide_eq_true_eq]
  omega

theorem map_upperChar_joinCharL : ∀ ts : List (List Char),
    (∀ t ∈ ts, ∀ c ∈ t, upperChar c = c) →
    (joinCharL ts).map upperChar = joinCharL ts
  | [], _ => rfl
  | [t], h => by
    show t.map upperChar = t
    rw [List.map_congr_left (fun c hc => h t (by simp) c hc), List.map_id']
  | t :: t' :: ts, h => by
    show (t ++ ',' :: ' ' :: joinCharL (t' :: ts)).map upperChar =
      t ++ ',' :: ' ' :: joinCharL (t' :: ts)
    rw [List.map_append, List.map_cons, List.map_cons,
      List.map_congr_left (fun c hc => h t (by simp) c hc), List.map_id',
      map_upperChar_joinCharL (t' :: ts) (fun u hu c hc => h u (by simp [hu]) c hc)]
    rfl

theorem wordRuns_append_run (r l : List Char) (hr : r ≠ [])
    (hw : ∀ c ∈ r, isWordChar c = true)
    (hl : ∀ c, l.head? = some c → isWordChar c = false) :
    wordRuns (r ++ l) = r :: wordRuns l := by
  obtain ⟨c, cs, rfl⟩ := List.exists_cons_of_ne_nil hr
  have ht : l.takeWhile isWordChar = [] := by
    cases l with
    | nil => rfl
    | cons x xs => exact List.takeWhile_cons_of_neg (by simp [hl x rfl])
  have hd : l.dropWhile isWordChar = l := by
    cases l with
    | nil => rfl
    | cons x xs => exact List.dropWhile_cons_of_neg (by simp [hl x rfl])
  rw [List.cons_append, wordRuns_cons_pos c _ (hw c (by simp)),
    List.takeWhile_append_of_pos (fun a ha => hw a (by simp [ha])),
    List.dropWhile_append_of_pos (fun a ha => hw a (by simp [ha])),
    ht, hd, List.append_nil]

theorem wordRuns_joinCharL : ∀ ts : List (List Char),
    (∀ t ∈ ts, t ≠ [] ∧ ∀ c ∈ t, isWordChar c = true) →
    wordRuns (joinCharL ts) = ts
  | [], _ => rfl
  | [t], h => by
    show wordRuns t = [t]
    have h2 := wordRuns_append_run t [] (h t (by simp)).1 (h t (by simp)).2
      (fun c hc => by simp at hc)
    simp only [List.append_nil] at h2
    rw [h2, wordRuns_nil]
  | t :: t' :: ts, h => by
    show wordRuns (t ++ ',' :: ' ' :: joinCharL (t' :: ts)) = t :: t' :: ts
    rw [wordRuns_append_run t _ (h t (by simp)).1 (h t (by simp)).2
        (fun c hc => by simp at hc; rw [← hc]; decide),
      wordRuns_cons_neg ',' _ (by decide), wordRuns_cons_neg ' ' _ (by decide),
      wordRuns_joinCharL (t' :: ts) (fun u hu => h u (by simp [hu]))]

theorem dedupGo_eq_self (l : List String) : ∀ seen, l.Nodup →
    (∀ x ∈ l, x ∉ seen) → dedupGo seen l = l := by
  induction l with
  | nil => intro seen _ _; rfl
  | cons a ts ih =>
    intro seen hnd hs
    rw [dedupGo, if_neg (hs a (by simp))]
    congr 1
    apply ih (a :: seen) (List.nodup_cons.mp hnd).2
    intro x hx hmem
    rcases List.mem_cons.mp hmem with rfl | hxs
    · exact (List.nodup_cons.mp hnd).1 hx
    · exact hs x (List.mem_cons_of_mem _ hx) hxs

/-- C9: the extractor is idempotent on its own output: joining the
extracted list with `", "` and re-running the extractor reproduces
exactly the same list. -/
theorem extractor_idempotent (text : String) :
    extract_tickers_from_text (joinComma (extract_tickers_from_text text)) =
      extract_tickers_from_text text := by
  set out := extract_tickers_from_text text with hout
  have hP : ∀ t ∈ out, matchesTickerShape t.toList = true ∧ t ∉ common_words :=
    fun t ht => ⟨(extract_mem_properties text t ht).2.1,
      (extract_mem_properties text t ht).2.2⟩
  have hupper : ∀ t ∈ out, ∀ c ∈ t.toList, 65 ≤ c.toNat ∧ c.toNat ≤ 90 := by
    intro t ht
    have hsh := (hP t ht).1
    rw [matchesTickerShape, decide_eq_true_eq] at hsh
    exact hsh.2.2
  have hnodup : out.Nodup := dedupGo_nodup _ []
  have ha : (joinComma out).toList.map upperChar =
      joinCharL (out.map String.toList) := by
    rw [toList_joinComma]
    apply map_upperChar_joinCharL
    intro t htl c hc
    obtain ⟨u, hu, rfl⟩ := List.mem_map.mp htl
    exact upperChar_of_upper c (hupper u hu c hc).1 (hupper u hu c hc).2
  have hb : wordRuns (joinCharL (out.map String.toList)) =
      out.map String.toList := by
    apply wordRuns_joinCharL
    intro t htl
    obtain ⟨u, hu, rfl⟩ := List.mem_map.mp htl
    refine ⟨?_, fun c hc =>
      isWordChar_of_upper c (hupper u hu c hc).1 (hupper u hu c hc).2⟩
    have hsh := (hP u hu).1
    rw [matchesTickerShape, decide_eq_true_eq] at hsh
    intro hnil
    rw [hnil] at hsh
    simp at hsh
  have hpot : potentialTickers (joinComma out) = out := by
    rw [potentialTickers, ha, hb,
      List.filter_eq_self.mpr (fun r hr => by
        obtain ⟨u, hu, rfl⟩ := List.mem_map.mp hr
        exact (hP u hu).1),
      List.map_map]
    exact (List.map_congr_left fun a _ => rfl).trans (List.map_id' out)
  have hfil : filteredTickers (joinComma out) = out := by
    rw [filteredTickers, hpot, List.filter_eq_self.mpr]
    intro t ht
    simp [(hP t ht).2]
  rw [extract_tickers_from_text, hfil]
  exact dedupGo_eq_self out [] hnodup (by simp)

theorem get_stock_summary_of_fetch_none (fetch : String → Option (List Bar))
    (t : String) (hf : fetch t = none) : get_stock_summary fetch t = none := by
  simp [get_stock_summary, hf]

theorem get_stock_summary_of_fetch_empty (fetch : String → Option (List Bar))
    (t : String) (hf : fetch t = some []) : get_stock_summary fetch t = none := by
  simp [get_stock_summary, hf]

theorem get_stock_summary_some (fetch : String → Option (List Bar)) (t : String)
    (bars : List Bar) (lb : Bar) (hf : fetch t = some bars)
    (hl : bars.getLast? = some lb) :
    get_stock_summary fetch t = some
      ⟨t, lb.close, (MA150 bars).getLast?.getD none,
        (match (MA150 bars).getLast?.getD none with
          | some m => if m ≠ 0 then some ((lb.close - m) / m * 100) else none
          | none => none),
        (calculate_atr bars).getLast?.getD none⟩ := by
  simp only [get_stock_summary, hf, hl]

/-- C6 (amended): in every Summary Record, the gap percent is defined
exactly when the 150-session moving average is defined and non-zero, and
then equals `(current_price - sma150) / sma150 * 100`; and whenever the
gap is defined and the moving average is positive,
`current_price > sma150` holds if and only if `gap_percent > 0` (for a
negative moving average the code's formula reverses the sign, so the
positivity assumption is necessary). -/
theorem gap_percent_semantics (fetch : String → Option (List Bar)) (t : String)
    (rec : SummaryRecord) (h : get_stock_summary fetch t = some rec) :
    (rec.gapPct.isSome ↔ rec.ma150.isSome ∧ rec.ma150 ≠ some 0) ∧
    (∀ m, rec.ma150 = some m → m ≠ 0 →
      rec.gapPct = some ((rec.currentPrice - m) / m * 100)) ∧
    (∀ m g, rec.ma150 = some m → rec.gapPct = some g → 0 < m →
      (m < rec.currentPrice ↔ 0 < g)) := by
  cases hf : fetch t with
  | none => rw [get_stock_summary_of_fetch_none fetch t hf] at h; exact absurd h (by simp)
  | some bars =>
    cases hlast : bars.getLast? with
    | none =>
      cases bars with
      | nil => rw [get_stock_summary_of_fetch_empty fetch t hf] at h; exact absurd h (by simp)
      | cons b bs => rw [List.getLast?_eq_getElem?] at hlast; simp at hlast
    | some lb =>
      rw [get_stock_summary_some fetch t bars lb hf hlast] at h
      injection h with h2
      subst h2
      refine ⟨?_, ?_, ?_⟩
      · cases hm : (MA150 bars).getLast?.getD none with
        | none => simp [hm]
        | some m =>
          by_cases hm0 : m = 0
          · simp [hm, hm0]
          · simp [hm, hm0]
      · intro m hm hm0
        simp only at hm
        rw [hm]
        simp [hm0]
      · intro m g hm hg h0
        simp only at hm hg
        rw [hm] at hg
        simp only [ne_eq] at hg
        rw [if_pos (by exact fun hc => absurd hc (ne_of_gt h0))] at hg
        injection hg with hg2
        have hmul : g * m = (lb.close - m) * 100 := by
          rw [← hg2]
          field_simp
        simp only []
        constructor
        · intro hlt
          nlinarith
        · intro hg0
          nlinarith

/-- A bar with closing price `-2` (fetched data is not constrained to be
positive by the code). -/
def negBar : Bar := ⟨0, 0, 0, -2, 0⟩

/-- A bar with all prices `0`. -/
def zeroBar : Bar := ⟨0, 0, 0, 0, 0⟩

/-- A 150-session series whose moving average is negative at the last
session while the last close is higher than the average. -/
def cexBars : List Bar := List.replicate 149 negBar ++ [zeroBar]

/-- A fetcher that returns `cexBars` for every ticker. -/
def cexFetch : String → Option (List Bar) := fun _ => some cexBars

theorem cexBars_ma : (MA150 cexBars).getLast?.getD none = some (-149 / 75) := by
  have hlen : cexBars.length = 150 := by simp [cexBars]
  have h1 : (MA150 cexBars).getLast? = (MA150 cexBars)[149]? := by
    rw [List.getLast?_eq_getElem?, MA150, length_rollingMean]
    simp [hlen]
  rw [h1, MA150_getElem?_ge cexBars 149 (by rw [hlen]; omega) (by norm_num),
    Option.getD_some]
  have hclose : cexBars.map Bar.close = List.replicate 149 (-2 : ℚ) ++ [0] := by
    simp [cexBars, negBar, zeroBar]
  rw [hclose, show (149 : ℕ) + 1 = 150 from rfl,
    List.take_of_length_le (by simp), show (150 : ℕ) - 150 = 0 from rfl,
    List.drop_zero, List.sum_append, List.sum_replicate]
  norm_num

theorem cex_summary_eval : get_stock_summary cexFetch "X" = some
    ⟨"X", 0, some (-149 / 75), some (-100),
      (calculate_atr cexBars).getLast?.getD none⟩ := by
  have hlast : cexBars.getLast? = some zeroBar := by
    rw [cexBars]; exact List.getLast?_concat _
  rw [get_stock_summary_some cexFetch "X" cexBars zeroBar rfl hlast, cexBars_ma]
  norm_num [zeroBar]

/-- C6 counterexample: a concrete Summary Record (negative moving
average) in which the current price exceeds the moving average yet the
gap percent is negative, refuting `current_price > sma150 ↔
gap_percent > 0` as stated. -/
theorem gap_sign_counterexample :
    (get_stock_summary cexFetch "X").map SummaryRecord.currentPrice = some 0 ∧
    (get_stock_summary cexFetch "X").bind SummaryRecord.ma150 = some (-149 / 75) ∧
    (get_stock_summary cexFetch "X").bind SummaryRecord.gapPct = some (-100) ∧
    ((-149 : ℚ) / 75 < 0) ∧ ¬((0 : ℚ) < (-100 : ℚ)) := by
  rw [cex_summary_eval]
  exact ⟨rfl, rfl, rfl, by norm_num, by norm_num⟩

/-- The last bar of the positive witness series: closing price 2. -/
def lastBar2 : Bar := ⟨2, 2, 2, 2, 1⟩

/-- A 150-session series with positive closes: 149 sessions at 1 and a
final session at 2. -/
def posBars : List Bar := List.replicate 149 constBar ++ [lastBar2]

/-- A fetcher that returns `posBars` for every ticker. -/
def posFetch : String → Option (List Bar) := fun _ => some posBars

/-- The Summary Record built from `posBars`. -/
def posRec : SummaryRecord :=
  ⟨"X", 2, some (151 / 150), some (14900 / 151),
    (calculate_atr posBars).getLast?.getD none⟩

theorem posBars_ma : (MA150 posBars).getLast?.getD none = some (151 / 150) := by
  have hlen : posBars.length = 150 := by simp [posBars]
  have h1 : (MA150 posBars).getLast? = (MA150 posBars)[149]? := by
    rw [List.getLast?_eq_getElem?, MA150, length_rollingMean]
    simp [hlen]
  rw [h1, MA150_getElem?_ge posBars 149 (by rw [hlen]; omega) (by norm_num),
    Option.getD_some]
  have hclose : posBars.map Bar.close = List.replicate 149 (1 : ℚ) ++ [2] := by
    simp [posBars, constBar, lastBar2]
  rw [hclose, show (149 : ℕ) + 1 = 150 from rfl,
    List.take_of_length_le (by simp), show (150 : ℕ) - 150 = 0 from rfl,
    List.drop_zero, List.sum_append, List.sum_replicate]
  norm_num

theorem pos_summary_eval : get_stock_summary posFetch "X" = some posRec := by
  have hlast : posBars.getLast? = some lastBar2 := by
    rw [posBars]; exact List.getLast?_concat _
  rw [get_stock_summary_some posFetch "X" posBars lastBar2 rfl hlast, posBars_ma,
    posRec]
  norm_num [lastBar2]

/-- Witness for `gap_percent_semantics` at the concrete record built
from `posBars` (positive moving average). -/
theorem gap_percent_semantics_witness :
    get_stock_summary posFetch "X" = some posRec ∧
    (posRec.gapPct.isSome ↔ posRec.ma150.isSome ∧ posRec.ma150 ≠ some 0) ∧
    (posRec.ma150 = some (151 / 150) ∧ (151 : ℚ) / 150 ≠ 0 ∧
      posRec.gapPct = some ((posRec.currentPrice - 151 / 150) / (151 / 150) * 100)) ∧
    (posRec.gapPct = some (14900 / 151) ∧ (0 : ℚ) < 151 / 150) ∧
    ((151 : ℚ) / 150 < posRec.currentPrice ↔ (0 : ℚ) < (14900 / 151 : ℚ)) :=
  ⟨pos_summary_eval,
   (gap_percent_semantics posFetch "X" posRec pos_summary_eval).1,
   ⟨rfl, by norm_num,
    (gap_percent_semantics posFetch "X" posRec pos_summary_eval).2.1 (151 / 150)
      rfl (by norm_num)⟩,
   ⟨rfl, by norm_num⟩,
   (gap_percent_semantics posFetch "X" posRec pos_summary_eval).2.2 (151 / 150)
     (14900 / 151) rfl rfl (by norm_num)⟩

/-- C7: a ticker whose fetch fails (an exception, modelled as `none`)
or returns an empty series gets summary `None`; in the batch loop it is
recorded in the failed list at its input position, the remaining tickers
before and after it are processed normally, and both accumulators keep
input order. -/
theorem batch_failure_isolation (fetch : String → Option (List Bar))
    (xs ys : List String) (t : String)
    (hfail : fetch t = none ∨ fetch t = some []) :
    get_stock_summary fetch t = none ∧
    processBatch fetch (xs ++ t :: ys) =
      ((processBatch fetch xs).1 ++ (processBatch fetch ys).1,
       (processBatch fetch xs).2 ++ t :: (processBatch fetch ys).2) := by
  have hnone : get_stock_summary fetch t = none := by
    rcases hfail with hf | hf
    · exact get_stock_summary_of_fetch_none fetch t hf
    · exact get_stock_summary_of_fetch_empty fetch t hf
  refine ⟨hnone, ?_⟩
  induction xs with
  | nil => simp [processBatch, hnone]
  | cons x xs ih =>
    simp only [List.cons_append, processBatch, ih]
    cases get_stock_summary fetch x <;> simp [ih]

/-- A fetcher that returns an empty series for every ticker. -/
def emptyFetch : String → Option (List Bar) := fun _ => some []

/-- Witness for `batch_failure_isolation`: the failing ticker `"BAD"`
between `"A"` and `"B"` under a fetcher that returns empty series. -/
theorem batch_failure_isolation_witness :
    (emptyFetch "BAD" = none ∨ emptyFetch "BAD" = some []) ∧
    get_stock_summary emptyFetch "BAD" = none ∧
    processBatch emptyFetch (["A"] ++ "BAD" :: ["B"]) =
      ((processBatch emptyFetch ["A"]).1 ++ (processBatch emptyFetch ["B"]).1,
       (processBatch emptyFetch ["A"]).2 ++ "BAD" ::
         (processBatch emptyFetch ["B"]).2) :=
  ⟨Or.inr rfl,
   (batch_failure_isolation emptyFetch ["A"] ["B"] "BAD" (Or.inr rfl)).1,
   (batch_failure_isolation emptyFetch ["A"] ["B"] "BAD" (Or.inr rfl)).2⟩

theorem validGaps_cons (r : SummaryRecord) (rs : List SummaryRecord) :
    validGaps (r :: rs) =
      match r.gapPct with
      | some g => g :: validGaps rs
      | none => validGaps rs := by
  cases h : r.gapPct <;> simp [validGaps, List.filterMap_cons, h]

theorem countP_validGaps (p : ℚ → Bool) (rs : List SummaryRecord) :
    (validGaps rs).countP p =
      rs.countP (fun r => match r.gapPct with | some g => p g | none => false) := by
  induction rs with
  | nil => rfl
  | cons r rs ih =>
    rw [validGaps_cons, List.countP_cons]
    cases h : r.gapPct with
    | none => simp [h, ih]
    | some g => rw [List.countP_cons]; simp [h, ih]

theorem countP_pos_add_neg_le (l : List ℚ) :
    l.countP (fun g => decide (0 < g)) + l.countP (fun g => decide (g < 0)) ≤
      l.length := by
  induction l with
  | nil => simp
  | cons a ts ih =>
    rw [List.countP_cons, List.countP_cons, List.length_cons]
    by_cases h1 : (0 : ℚ) < a <;> by_cases h2 : a < 0
    · exact absurd (h1.trans h2) (lt_irrefl 0)
    · simp [h1, h2]
      omega
    · simp [h1, h2]
      omega
    · simp [h1, h2]
      omega

theorem validGaps_filter_isSome (rs : List SummaryRecord) :
    validGaps (rs.filter (fun r => r.gapPct.isSome)) = validGaps rs := by
  induction rs with
  | nil => rfl
  | cons r rs ih =>
    rw [List.filter_cons]
    cases h : r.gapPct with
    | none => simp [h, validGaps_cons, ih]
    | some g => simp [h, validGaps_cons, ih]

/-- C8: the batch aggregates count exactly the succeeded records with a
defined positive (resp. negative) gap; records with an undefined gap are
excluded from both counts and from the mean (filtering them away changes
nothing); and `above + below ≤ succeeded`. -/
theorem batch_aggregates (rs : List SummaryRecord) :
    above_ma rs = rs.countP
      (fun r => match r.gapPct with | some g => decide (0 < g) | none => false) ∧
    below_ma rs = rs.countP
      (fun r => match r.gapPct with | some g => decide (g < 0) | none => false) ∧
    above_ma rs + below_ma rs ≤ rs.length ∧
    above_ma (rs.filter (fun r => r.gapPct.isSome)) = above_ma rs ∧
    below_ma (rs.filter (fun r => r.gapPct.isSome)) = below_ma rs ∧
    avg_gap (rs.filter (fun r => r.gapPct.isSome)) = avg_gap rs := by
  refine ⟨countP_validGaps _ rs, countP_validGaps _ rs, ?_, ?_, ?_, ?_⟩
  · exact (countP_pos_add_neg_le (validGaps rs)).trans
      (List.length_filterMap_le _ _)
  · rw [above_ma, above_ma, validGaps_filter_isSome]
  · rw [below_ma, below_ma, validGaps_filter_isSome]
  · rw [avg_gap, avg_gap, validGaps_filter_isSome]
